import Mathlib

/-!
Verification development for the weekly kanban board core of the homework
management frontend (frontend/assignment-editor/src/App.tsx).

Modelling conventions:
* Timestamps are minutes since 1970-01-01 00:00 in local time, as `Int`.
  The JavaScript code works with millisecond `Date` values; every timestamp
  produced by the pipeline is minute-granular (the parse pattern
  yyyy-MM-dd h:mm a has no seconds), so the minute timeline is an exact
  image of the millisecond one for all values that occur.  The model has no
  DST, matching a fixed-offset local timeline.
* JavaScript string values (assignment status at runtime) are `String`,
  not a closed enumeration, because the switch statements in the source
  dispatch on runtime strings and have no default branch.
* `Array.prototype.sort` with comparator (a, b) => a.dueDateTime - b.dueDateTime
  is a stable sort; its output is the unique stable-sorted permutation,
  which `List.insertionSort` with the non-strict key order computes.
-/

namespace HomeworkKanban

/-! ## Calendar arithmetic (proleptic Gregorian, Howard Hinnant algorithms) -/

def isLeapYear (y : Int) : Bool :=
  y % 4 = 0 && (y % 100 ≠ 0 || y % 400 = 0)

def daysInMonth (y : Int) (m : Nat) : Nat :=
  if m = 1 then 31
  else if m = 2 then (if isLeapYear y then 29 else 28)
  else if m = 3 then 31
  else if m = 4 then 30
  else if m = 5 then 31
  else if m = 6 then 30
  else if m = 7 then 31
  else if m = 8 then 31
  else if m = 9 then 30
  else if m = 10 then 31
  else if m = 11 then 30
  else 31

/-- Days since 1970-01-01 of the civil date y-m-d.  Note that `Int`
division in Lean is Euclidean division, which for the positive divisors
used here coincides with floor division, as the algorithm requires. -/
def daysFromCivil (y : Int) (m d : Nat) : Int :=
  let y' : Int := if m ≤ 2 then y - 1 else y
  let era : Int := y' / 400
  let yoe : Int := y' - era * 400
  let mp : Int := ((m : Int) + 9) % 12
  let doy : Int := (153 * mp + 2) / 5 + (d : Int) - 1
  let doe : Int := yoe * 365 + yoe / 4 - yoe / 100 + doy
  era * 146097 + doe - 719468

/-- Inverse of `daysFromCivil`: the civil date (year, month, day) of the
day that is z days after 1970-01-01. -/
def civilFromDays (z : Int) : Int × Nat × Nat :=
  let z' : Int := z + 719468
  let era : Int := z' / 146097
  let doe : Int := z' - era * 146097
  let yoe : Int := (doe - doe / 1460 + doe / 36524 - doe / 146096) / 365
  let y : Int := yoe + era * 400
  let doy : Int := doe - (365 * yoe + yoe / 4 - yoe / 100)
  let mp : Int := (5 * doy + 2) / 153
  let d : Nat := (doy - (153 * mp + 2) / 5 + 1).toNat
  let m : Nat := (if mp < 10 then mp + 3 else mp - 9).toNat
  (if m ≤ 2 then y + 1 else y, m, d)

def minutesPerDay : Int := 1440

def minutesPerWeek : Int := 10080

/-- The minute timestamp of the local civil datetime y-mo-d hh:mi. -/
def mkTimestamp (y : Int) (mo d hh mi : Nat) : Int :=
  daysFromCivil y mo d * minutesPerDay + (hh : Int) * 60 + (mi : Int)

/-! ## Model of date-fns parse with the fixed pattern yyyy-MM-dd h:mm a

The source builds the string due_date ++ " " ++ due_time and calls
date-fns parse with pattern yyyy-MM-dd h:mm a.  Numeric date-fns tokens
of width n match one to n digits greedily; the a token matches the day
period AM or PM case-insensitively (the locale also accepts words such
as noon, which never occur in this data shape and are not modelled);
parsed values are validated (month 1-12, day within the month, hour
1-12, minute 0-59) and trailing unconsumed input makes the parse fail,
yielding an Invalid Date in the source. -/

def isDigitChar (c : Char) : Bool := '0' ≤ c && c ≤ '9'

def digitVal (c : Char) : Nat := c.toNat - 48

/-- Consume up to n further digits greedily, accumulating into acc. -/
def readDigitsLoop : Nat → Nat → List Char → Nat × List Char
  | 0, acc, cs => (acc, cs)
  | _ + 1, acc, [] => (acc, [])
  | n + 1, acc, c :: cs =>
    if isDigitChar c then readDigitsLoop n (acc * 10 + digitVal c) cs
    else (acc, c :: cs)

/-- Match one to n digits greedily (the numeric pattern of date-fns). -/
def readUpToNDigits (n : Nat) : List Char → Option (Nat × List Char)
  | [] => none
  | c :: cs =>
    if isDigitChar c then some (readDigitsLoop (n - 1) (digitVal c) cs)
    else none

def expectChar (ch : Char) : List Char → Option (List Char)
  | [] => none
  | c :: cs => if c = ch then some cs else none

/-- Match the day period: AM or PM, case-insensitively.  Returns true
for PM. -/
def readDayPeriod : List Char → Option (Bool × List Char)
  | c1 :: c2 :: cs =>
    if (c1 = 'A' || c1 = 'a') && (c2 = 'M' || c2 = 'm') then some (false, cs)
    else if (c1 = 'P' || c1 = 'p') && (c2 = 'M' || c2 = 'm') then some (true, cs)
    else none
  | _ => none

/-- Parse a full string against the pattern yyyy-MM-dd h:mm a, with the
date-fns field validations, producing a minute timestamp. -/
def parseDateTimeString (s : String) : Option Int := do
  let cs := s.data
  let (y, cs) ← readUpToNDigits 4 cs
  let cs ← expectChar '-' cs
  let (mo, cs) ← readUpToNDigits 2 cs
  let cs ← expectChar '-' cs
  let (d, cs) ← readUpToNDigits 2 cs
  let cs ← expectChar ' ' cs
  let (h, cs) ← readUpToNDigits 2 cs
  let cs ← expectChar ':' cs
  let (mi, cs) ← readUpToNDigits 2 cs
  let cs ← expectChar ' ' cs
  let (pm, cs) ← readDayPeriod cs
  if cs = [] ∧ 1 ≤ mo ∧ mo ≤ 12 ∧ 1 ≤ d ∧ d ≤ daysInMonth (y : Int) mo ∧
      1 ≤ h ∧ h ≤ 12 ∧ mi ≤ 59 then
    some (mkTimestamp (y : Int) mo d (h % 12 + if pm then 12 else 0) mi)
  else
    none

/-- The combined parse of the two fields, as in the source:
parse(due_date ++ " " ++ due_time, yyyy-MM-dd h:mm a, new Date()). -/
def parseDueDateTime (due_date due_time : String) : Option Int :=
  parseDateTimeString (due_date ++ " " ++ due_time)

/-! ## Data model -/

/-- An assignment record as held at runtime (shared/types plus the
database id and status fields used by App.tsx).  The status is a runtime
string: the TypeScript union type is erased at runtime and the switch
statements dispatch on string values with no default branch. -/
structure Assignment where
  id : Int
  name : String
  due_date : String
  due_time : String
  submission_link : String
  status : String
  deriving DecidableEq, Repr

/-- A syllabus record (AssignmentData in the source). -/
structure AssignmentData where
  id : Int
  class_name : String
  course_code : String
  assignments : List Assignment
  deriving DecidableEq, Repr

/-- An assignment annotated with its course metadata, as produced by the
flattening step at the top of the weeklyBoards useMemo. -/
structure FlatAssignment extends Assignment where
  courseCode : String
  class_name : String
  syllabus_id : Int
  deriving DecidableEq, Repr

/-- AssignmentWithId of the source: an assignment with course metadata
and the parsed combined due timestamp. -/
structure AssignmentWithId extends Assignment where
  dueDateTime : Int
  courseCode : String
  class_name : String
  syllabus_id : Int
  deriving DecidableEq, Repr

structure WeeklyBoard where
  weekNumber : Nat
  startDate : Int
  endDate : Int
  title : String
  assignments : List AssignmentWithId
  deriving DecidableEq, Repr

structure Column where
  id : String
  title : String
  assignments : List AssignmentWithId
  deriving DecidableEq, Repr

/-! ## The weekly board derivation (weeklyBoards useMemo, App.tsx 1872-1957) -/

/-- The flattening step: Array.isArray(currentData) branches flatMap over
the syllabi (a single AssignmentData is the singleton-list case). -/
def flattenSyllabi (data : List AssignmentData) : List FlatAssignment :=
  data.flatMap fun syllabus =>
    syllabus.assignments.map fun assignment =>
      { toAssignment := assignment
        courseCode := syllabus.course_code
        class_name := syllabus.class_name
        syllabus_id := syllabus.id }

/-- Combine due_date and due_time into dueDateTime; on parse failure fall
back to the current time (new Date() at the moment of derivation, the
parameter now). -/
def toAssignmentWithId (now : Int) (fa : FlatAssignment) : AssignmentWithId :=
  { toAssignment := fa.toAssignment
    dueDateTime := (parseDueDateTime fa.due_date fa.due_time).getD now
    courseCode := fa.courseCode
    class_name := fa.class_name
    syllabus_id := fa.syllabus_id }

/-- The key order used by the sort comparator (a, b) => a.dueDateTime - b.dueDateTime. -/
def dueLE (a b : AssignmentWithId) : Prop := a.dueDateTime ≤ b.dueDateTime

instance : DecidableRel dueLE := fun _ _ => inferInstanceAs (Decidable (_ ≤ _))

instance : IsTotal AssignmentWithId dueLE := ⟨fun _ _ => Int.le_total _ _⟩

instance : IsTrans AssignmentWithId dueLE := ⟨fun _ _ _ h1 h2 => le_trans h1 h2⟩

/-- date-fns startOfWeek with weekStartsOn 1: the Monday 00:00 at or
before t.  Day 0 of the timeline (1970-01-01) is a Thursday, so shifting
by 3 days aligns Mondays with multiples of the week length; Int mod is
Euclidean, hence nonnegative. -/
def startOfWeekMonday (t : Int) : Int :=
  t - (t + 3 * minutesPerDay) % minutesPerWeek

def pad2 (n : Nat) : String := if n < 10 then "0" ++ toString n else toString n

/-- date-fns format with pattern MM/dd. -/
def formatMMdd (t : Int) : String :=
  let c := civilFromDays (t / minutesPerDay)
  pad2 c.2.1 ++ "/" ++ pad2 c.2.2

def weekTitle (weekNumber : Nat) (startDate endDate : Int) : String :=
  "Week " ++ toString weekNumber ++ " [" ++ formatMMdd startDate ++ " - " ++
    formatMMdd endDate ++ "]"

/-- The while loop of the weeklyBoards useMemo.  weekEnd is
endOfWeek(currentWeekStart) with weekStartsOn 1; the loop only ever
applies it to Monday-aligned values, for which it is the last minute of
the same week, weekStart + minutesPerWeek - 1 (the source value is the
millisecond Sunday 23:59:59.999; every assignment timestamp is
minute-granular, so the inclusive minute interval selects the same
assignments).  isWithinInterval is inclusive on both ends. -/
def bucketWeeks (sorted : List AssignmentWithId) (latest : Int)
    (weekStart : Int) (weekNumber : Nat) : List WeeklyBoard :=
  if h : weekStart ≤ latest then
    let weekEnd := weekStart + minutesPerWeek - 1
    let weekAssignments := sorted.filter fun a =>
      decide (weekStart ≤ a.dueDateTime) && decide (a.dueDateTime ≤ weekEnd)
    if 0 < weekAssignments.length then
      { weekNumber := weekNumber
        startDate := weekStart
        endDate := weekEnd
        title := weekTitle weekNumber weekStart weekEnd
        assignments := weekAssignments } ::
        bucketWeeks sorted latest (weekStart + minutesPerWeek) (weekNumber + 1)
    else
      bucketWeeks sorted latest (weekStart + minutesPerWeek) weekNumber
  else
    []
termination_by (latest + minutesPerWeek - weekStart).toNat
decreasing_by
  all_goals (simp only [minutesPerWeek]; omega)

/-- The full weeklyBoards derivation: flatten, parse, stable-sort by due
instant, then bucket into Monday-aligned weeks from the week of the
earliest item while the week start does not pass the latest item. -/
def weeklyBoards (now : Int) (data : List AssignmentData) : List WeeklyBoard :=
  let allAssignments := flattenSyllabi data
  let assignmentsWithId :=
    List.insertionSort dueLE (allAssignments.map (toAssignmentWithId now))
  match assignmentsWithId with
  | [] => []
  | first :: rest =>
    let earliest := first.dueDateTime
    let latest := ((first :: rest).getLast (List.cons_ne_nil _ _)).dueDateTime
    bucketWeeks (first :: rest) latest (startOfWeekMonday earliest) 1

/-! ## Course color assignment (generateCourseColor, App.tsx 1441-1454) -/

def courseColors : List String :=
  ["#FF6B6B", "#4ECDC4", "#45B7D1", "#96CEB4", "#FFEAA7",
   "#DDA0DD", "#98D8C8", "#F7DC6F", "#BB8FCE", "#85C1E9",
   "#F8C471", "#82E0AA", "#F1948A", "#85C1E9", "#D7BDE2"]

/-- JavaScript ToInt32: wrap an integer to the signed 32-bit range. -/
def toInt32 (x : Int) : Int := (x + 2 ^ 31) % 2 ^ 32 - 2 ^ 31

/-- One step of the rolling hash: charCode + ((hash << 5) - hash).  The
shift operator coerces its operand to Int32 and wraps the result to
Int32; the outer addition and subtraction are exact (double arithmetic
is exact at these magnitudes).  charCodeAt yields the UTF-16 code unit,
which equals the code point for the basic-plane characters of course
codes. -/
def courseHashStep (hash : Int) (c : Char) : Int :=
  (c.toNat : Int) + (toInt32 (toInt32 hash * 32) - hash)

def generateCourseColor (courseCode : String) : String :=
  let hash := courseCode.data.foldl courseHashStep 0
  courseColors.getD (hash.natAbs % courseColors.length) ""

/-! ## Column derivation (status-distribution useEffect, App.tsx 1582-1608
and 1722-1746) -/

structure StatusBuckets where
  notStarted : List AssignmentWithId
  inProgress : List AssignmentWithId
  done : List AssignmentWithId
  deriving DecidableEq, Repr

/-- One iteration of the forEach: the switch on assignment.status pushes
into the matching bucket; a status matching no case falls through the
switch and the assignment is pushed nowhere. -/
def pushByStatus (acc : StatusBuckets) (assignment : AssignmentWithId) : StatusBuckets :=
  if assignment.status = "NOT_STARTED" then
    { acc with notStarted := acc.notStarted ++ [assignment] }
  else if assignment.status = "IN_PROGRESS" then
    { acc with inProgress := acc.inProgress ++ [assignment] }
  else if assignment.status = "DONE" then
    { acc with done := acc.done ++ [assignment] }
  else acc

def distributeByStatus (assignments : List AssignmentWithId) : StatusBuckets :=
  assignments.foldl pushByStatus ⟨[], [], []⟩

/-- The setColumns call: the three fixed columns filled from the buckets. -/
def deriveColumns (assignments : List AssignmentWithId) : List Column :=
  let b := distributeByStatus assignments
  [{ id := "not-started", title := "Not Started", assignments := b.notStarted },
   { id := "in-progress", title := "In Progress", assignments := b.inProgress },
   { id := "done", title := "Done", assignments := b.done }]

/-! ## Drag completion (WeeklyBoard.handleDragEnd, App.tsx 1623-1681)

The handler is modelled as a pure function from the drag event and the
outcome of the awaited status update to the list of effects it performs,
in order, together with the resulting column state.  The effect
vocabulary covers everything the handler and its callees can do:
console logging, the updateAssignmentStatus request, the
onRefreshData refetch (the only operation that replaces the in-memory
working copy of syllabus data), the onAssignmentMove callback (which
only logs), and a browser alert dialog, the user-facing message
mechanism available in this file (window.confirm is used for deletion
confirmations).  The handler never calls setColumns, so the column
state it returns is always the state it received. -/

inductive DragEffect where
  | consoleLog : String → DragEffect
  | consoleError : String → DragEffect
  | updateStatusRequest : Int → String → DragEffect
  | refetchRequest : DragEffect
  | moveCallback : Int → String → DragEffect
  | windowAlert : String → DragEffect
  deriving DecidableEq, Repr

def validColumns : List String := ["not-started", "in-progress", "done"]

/-- The statusMap record of the handler. -/
def statusMap (columnId : String) : Option String :=
  if columnId = "not-started" then some "NOT_STARTED"
  else if columnId = "in-progress" then some "IN_PROGRESS"
  else if columnId = "done" then some "DONE"
  else none

/-- The for-of loop over columns with find and break. -/
def findAssignmentInColumns (columns : List Column) (assignmentId : Int) :
    Option AssignmentWithId :=
  columns.findSome? fun column =>
    column.assignments.find? fun a => a.id == assignmentId

structure DragEndOutcome where
  effects : List DragEffect
  columns : List Column
  deriving DecidableEq, Repr

/-- WeeklyBoard.handleDragEnd.  over is the drop target (none when the
drag ended on no droppable); updateSucceeds is whether the awaited
updateAssignmentStatus call resolves (false models a network or server
failure, which throws into the catch block). -/
def handleDragEnd (columns : List Column) (activeId : Int) (over : Option String)
    (updateSucceeds : Bool) : DragEndOutcome :=
  match over with
  | none =>
    { effects := [.consoleLog "Drag end",
                  .consoleLog "No drop target - returning to original position"]
      columns := columns }
  | some newColumnId =>
    if newColumnId ∈ validColumns then
      match statusMap newColumnId with
      | none =>
        { effects := [.consoleLog "Drag end", .consoleLog "Moving assignment"]
          columns := columns }
      | some newStatus =>
        match findAssignmentInColumns columns activeId with
        | none =>
          { effects := [.consoleLog "Drag end", .consoleLog "Moving assignment",
                        .consoleLog "Assignment not found"]
            columns := columns }
        | some _ =>
          if updateSucceeds then
            { effects := [.consoleLog "Drag end", .consoleLog "Moving assignment",
                          .updateStatusRequest activeId newStatus,
                          .refetchRequest,
                          .moveCallback activeId newColumnId]
              columns := columns }
          else
            { effects := [.consoleLog "Drag end", .consoleLog "Moving assignment",
                          .updateStatusRequest activeId newStatus,
                          .consoleError "Failed to update assignment status"]
              columns := columns }
    else
      { effects := [.consoleLog "Drag end",
                    .consoleLog "Invalid drop target - returning to original position"]
        columns := columns }

/-- A user-visible failure message in the effect vocabulary of this
component: an alert dialog.  The component has no error state and
renders no message element, so a dialog is the only way a message could
reach the user here. -/
def emitsVisibleMessage (effects : List DragEffect) : Prop :=
  ∃ m, DragEffect.windowAlert m ∈ effects

/-! ## Auto-selection of the current week (KanbanView useEffect,
App.tsx 2024-2043) -/

inductive BoardType where
  | weekly
  | allAssignments
  deriving DecidableEq, Repr

/-- The auto-selection effect: when weekly boards exist, no explicit
selection has been made, and the weekly board type is active, select the
board whose inclusive date interval contains today, or the first board
when none does; otherwise leave the selection alone. -/
def autoSelectWeek (boards : List WeeklyBoard) (selectedWeek : Option Nat)
    (selectedBoardType : BoardType) (today : Int) : Option Nat :=
  match boards, selectedWeek, selectedBoardType with
  | b0 :: rest, none, .weekly =>
    match (b0 :: rest).find? (fun b =>
        decide (b.startDate ≤ today) && decide (today ≤ b.endDate)) with
    | some b => some b.weekNumber
    | none => some b0.weekNumber
  | _, _, _ => selectedWeek

/-! ## Lemmas: sorted lists under the due-instant order -/

theorem sorted_dueLE_head_le {first : AssignmentWithId} {rest : List AssignmentWithId}
    (hs : List.Sorted dueLE (first :: rest)) :
    ∀ a ∈ first :: rest, first.dueDateTime ≤ a.dueDateTime := by
  intro a ha
  rcases List.mem_cons.mp ha with rfl | ha'
  · exact le_refl _
  · exact List.rel_of_sorted_cons hs a ha'

theorem sorted_dueLE_le_getLast :
    ∀ {l : List AssignmentWithId} (h : l ≠ []), List.Sorted dueLE l →
      ∀ a ∈ l, a.dueDateTime ≤ (l.getLast h).dueDateTime := by
  intro l
  induction l with
  | nil => intro h; exact absurd rfl h
  | cons x t ih =>
    intro _ hs a ha
    cases t with
    | nil =>
      rcases List.mem_cons.mp ha with rfl | ha'
      · exact le_refl _
      · exact absurd ha' (List.not_mem_nil a)
    | cons y t' =>
      rw [List.getLast_cons (List.cons_ne_nil y t')]
      rcases List.mem_cons.mp ha with rfl | ha'
      · exact List.rel_of_sorted_cons hs _ (List.getLast_mem (List.cons_ne_nil y t'))
      · exact ih (List.cons_ne_nil y t') hs.of_cons a ha'

/-! ## Lemmas: splitting a filter at a week boundary -/

/-- The elements in the window [w, w + week - 1] followed by the elements
at or after w + week are a permutation of the elements at or after w. -/
theorem filter_window_append_perm (l : List AssignmentWithId) (w : Int) :
    (l.filter (fun a => decide (w ≤ a.dueDateTime) &&
        decide (a.dueDateTime ≤ w + minutesPerWeek - 1)) ++
      l.filter (fun a => decide (w + minutesPerWeek ≤ a.dueDateTime))).Perm
      (l.filter (fun a => decide (w ≤ a.dueDateTime))) := by
  induction l with
  | nil => simp
  | cons x t ih =>
    by_cases h1 : w ≤ x.dueDateTime
    · by_cases h2 : x.dueDateTime ≤ w + minutesPerWeek - 1
      · have h3 : ¬ (w + minutesPerWeek ≤ x.dueDateTime) := by
          simp only [minutesPerWeek] at h2 ⊢; omega
        simp only [List.filter_cons]
        rw [if_pos (by simp [h1, h2]), if_neg (by simp [h3]), if_pos (by simp [h1])]
        simpa using ih.cons x
      · have h3 : w + minutesPerWeek ≤ x.dueDateTime := by
          simp only [minutesPerWeek] at h2 ⊢; omega
        simp only [List.filter_cons]
        rw [if_neg (by simp [h2]), if_pos (by simp [h3]), if_pos (by simp [h1])]
        exact (List.perm_middle).trans (ih.cons x)
    · have h3 : ¬ (w + minutesPerWeek ≤ x.dueDateTime) := by
        simp only [minutesPerWeek] at h1 ⊢; omega
      simp only [List.filter_cons]
      rw [if_neg (by simp [h1]), if_neg (by simp [h3]), if_neg (by simp [h1])]
      exact ih

/-! ## Lemmas: unfolding the week-bucketing loop branch by branch -/

theorem bucketWeeks_emit {sorted : List AssignmentWithId} {latest ws : Int} {n : Nat}
    (hle : ws ≤ latest)
    (hpos : 0 < (sorted.filter (fun a => decide (ws ≤ a.dueDateTime) &&
      decide (a.dueDateTime ≤ ws + minutesPerWeek - 1))).length) :
    bucketWeeks sorted latest ws n =
      { weekNumber := n, startDate := ws, endDate := ws + minutesPerWeek - 1,
        title := weekTitle n ws (ws + minutesPerWeek - 1),
        assignments := sorted.filter (fun a => decide (ws ≤ a.dueDateTime) &&
          decide (a.dueDateTime ≤ ws + minutesPerWeek - 1)) } ::
        bucketWeeks sorted latest (ws + minutesPerWeek) (n + 1) := by
  rw [bucketWeeks]
  simp only [dif_pos hle]
  rw [if_pos hpos]

theorem bucketWeeks_skip {sorted : List AssignmentWithId} {latest ws : Int} {n : Nat}
    (hle : ws ≤ latest)
    (hnpos : ¬ 0 < (sorted.filter (fun a => decide (ws ≤ a.dueDateTime) &&
      decide (a.dueDateTime ≤ ws + minutesPerWeek - 1))).length) :
    bucketWeeks sorted latest ws n = bucketWeeks sorted latest (ws + minutesPerWeek) n := by
  rw [bucketWeeks]
  simp only [dif_pos hle]
  rw [if_neg hnpos]

theorem bucketWeeks_stop {sorted : List AssignmentWithId} {latest ws : Int} {n : Nat}
    (hgt : ¬ ws ≤ latest) :
    bucketWeeks sorted latest ws n = [] := by
  rw [bucketWeeks]
  simp only [dif_neg hgt]

/-- Shape of every emitted board: its window starts at or after the loop
variable, spans exactly one week, its number is at or after the running
number, its assignments are exactly the elements of the sorted input in
its window, and it is non-empty. -/
theorem mem_bucketWeeks (sorted : List AssignmentWithId) (latest : Int)
    (weekStart : Int) (weekNumber : Nat) (b : WeeklyBoard)
    (hb : b ∈ bucketWeeks sorted latest weekStart weekNumber) :
    weekStart ≤ b.startDate ∧ b.endDate = b.startDate + minutesPerWeek - 1 ∧
    weekNumber ≤ b.weekNumber ∧
    b.assignments = sorted.filter (fun a =>
      decide (b.startDate ≤ a.dueDateTime) &&
      decide (a.dueDateTime ≤ b.endDate)) ∧
    b.assignments ≠ [] := by
  induction weekStart, weekNumber using bucketWeeks.induct sorted latest with
  | case1 ws n hle weekEnd weekAssignments hpos ih =>
    rw [bucketWeeks_emit hle (by exact hpos)] at hb
    rcases List.mem_cons.mp hb with rfl | hb'
    · refine ⟨le_refl _, rfl, le_refl _, rfl, ?_⟩
      exact List.length_pos.mp (by exact hpos)
    · obtain ⟨h1, h2, h3, h4, h5⟩ := ih hb'
      refine ⟨?_, h2, ?_, h4, h5⟩
      · simp only [minutesPerWeek] at h1; omega
      · omega
  | case2 ws n hle weekEnd weekAssignments hnpos ih =>
    rw [bucketWeeks_skip hle (by exact hnpos)] at hb
    obtain ⟨h1, h2, h3, h4, h5⟩ := ih hb
    refine ⟨?_, h2, h3, h4, h5⟩
    simp only [minutesPerWeek] at h1; omega
  | case3 ws n hgt =>
    rw [bucketWeeks_stop hgt] at hb
    exact absurd hb (List.not_mem_nil b)

/-- The emitted week numbers are consecutive from the running number. -/
theorem bucketWeeks_map_weekNumber (sorted : List AssignmentWithId) (latest : Int)
    (weekStart : Int) (weekNumber : Nat) :
    (bucketWeeks sorted latest weekStart weekNumber).map (·.weekNumber) =
      List.range' weekNumber (bucketWeeks sorted latest weekStart weekNumber).length := by
  induction weekStart, weekNumber using bucketWeeks.induct sorted latest with
  | case1 ws n hle weekEnd weekAssignments hpos ih =>
    rw [bucketWeeks_emit hle (by exact hpos)]
    simp only [List.map_cons, List.length_cons, List.range'_succ]
    exact congrArg (n :: ·) ih
  | case2 ws n hle weekEnd weekAssignments hnpos ih =>
    rw [bucketWeeks_skip hle (by exact hnpos)]
    exact ih
  | case3 ws n hgt =>
    rw [bucketWeeks_stop hgt]
    simp

/-- Any two boards, in emission order, have disjoint windows: the first
ends strictly before the second starts. -/
theorem bucketWeeks_pairwise (sorted : List AssignmentWithId) (latest : Int)
    (weekStart : Int) (weekNumber : Nat) :
    (bucketWeeks sorted latest weekStart weekNumber).Pairwise
      (fun b1 b2 => b1.endDate < b2.startDate) := by
  induction weekStart, weekNumber using bucketWeeks.induct sorted latest with
  | case1 ws n hle weekEnd weekAssignments hpos ih =>
    rw [bucketWeeks_emit hle (by exact hpos)]
    refine List.pairwise_cons.mpr ⟨?_, ih⟩
    intro b' hb'
    have h1 := (mem_bucketWeeks _ _ _ _ _ hb').1
    simp only [minutesPerWeek] at h1 ⊢
    omega
  | case2 ws n hle weekEnd weekAssignments hnpos ih =>
    rw [bucketWeeks_skip hle (by exact hnpos)]
    exact ih
  | case3 ws n hgt =>
    rw [bucketWeeks_stop hgt]
    exact List.Pairwise.nil

/-- The concatenation of the emitted boards is, up to permutation, the
set of input elements at or after the loop variable, provided every
element is at or before latest. -/
theorem bucketWeeks_flatMap_perm (sorted : List AssignmentWithId) (latest : Int)
    (hlatest : ∀ a ∈ sorted, a.dueDateTime ≤ latest)
    (weekStart : Int) (weekNumber : Nat) :
    ((bucketWeeks sorted latest weekStart weekNumber).flatMap (·.assignments)).Perm
      (sorted.filter (fun a => decide (weekStart ≤ a.dueDateTime))) := by
  induction weekStart, weekNumber using bucketWeeks.induct sorted latest with
  | case1 ws n hle weekEnd weekAssignments hpos ih =>
    rw [bucketWeeks_emit hle (by exact hpos)]
    simp only [List.flatMap_cons]
    exact (ih.append_left _).trans (filter_window_append_perm sorted ws)
  | case2 ws n hle weekEnd weekAssignments hnpos ih =>
    rw [bucketWeeks_skip hle (by exact hnpos)]
    refine ih.trans (List.Perm.of_eq (List.filter_congr ?_))
    intro a ha
    have hnpos' : ¬ 0 < (sorted.filter (fun a => decide (ws ≤ a.dueDateTime) &&
        decide (a.dueDateTime ≤ ws + minutesPerWeek - 1))).length := by exact hnpos
    have hzero : ∀ a ∈ sorted, ¬ (ws ≤ a.dueDateTime ∧
        a.dueDateTime ≤ ws + minutesPerWeek - 1) := by
      intro a' ha' hcon
      have : a' ∈ (sorted.filter (fun a => decide (ws ≤ a.dueDateTime) &&
          decide (a.dueDateTime ≤ ws + minutesPerWeek - 1))) := by
        rw [List.mem_filter]
        exact ⟨ha', by simp [hcon.1, hcon.2]⟩
      exact hnpos' (List.length_pos.mpr (List.ne_nil_of_mem this))
    have := hzero a ha
    simp only [decide_eq_decide]
    simp only [minutesPerWeek] at this ⊢
    omega
  | case3 ws n hgt =>
    rw [bucketWeeks_stop hgt]
    have : sorted.filter (fun a => decide (ws ≤ a.dueDateTime)) = [] := by
      rw [List.filter_eq_nil_iff]
      intro a ha
      have := hlatest a ha
      simp only [decide_eq_true_eq]
      omega
    rw [this]
    simp

/-! ## Lemmas: the full weeklyBoards pipeline -/

theorem startOfWeekMonday_le (t : Int) : startOfWeekMonday t ≤ t := by
  unfold startOfWeekMonday
  have h := Int.emod_nonneg (t + 3 * minutesPerDay)
    (show minutesPerWeek ≠ 0 by simp [minutesPerWeek])
  omega

theorem weeklyBoards_eq_bucketWeeks (now : Int) (data : List AssignmentData)
    {first : AssignmentWithId} {rest : List AssignmentWithId}
    (hs : List.insertionSort dueLE ((flattenSyllabi data).map (toAssignmentWithId now)) =
      first :: rest) :
    weeklyBoards now data =
      bucketWeeks (first :: rest)
        ((first :: rest).getLast (List.cons_ne_nil _ _)).dueDateTime
        (startOfWeekMonday first.dueDateTime) 1 := by
  unfold weeklyBoards
  simp only [hs]

theorem weeklyBoards_eq_nil (now : Int) (data : List AssignmentData)
    (hs : List.insertionSort dueLE ((flattenSyllabi data).map (toAssignmentWithId now)) = []) :
    weeklyBoards now data = [] := by
  unfold weeklyBoards
  simp only [hs]

/-- The multiset of assignments across all emitted boards is exactly the
flattened, metadata-annotated input. -/
theorem weeklyBoards_flatMap_perm (now : Int) (data : List AssignmentData) :
    ((weeklyBoards now data).flatMap (·.assignments)).Perm
      ((flattenSyllabi data).map (toAssignmentWithId now)) := by
  rcases hs : List.insertionSort dueLE ((flattenSyllabi data).map (toAssignmentWithId now))
    with _ | ⟨first, rest⟩
  · have hperm := List.perm_insertionSort dueLE
      ((flattenSyllabi data).map (toAssignmentWithId now))
    rw [hs] at hperm
    rw [weeklyBoards_eq_nil now data hs, List.nil_perm.mp hperm]
    simp
  · have hsorted : List.Sorted dueLE (first :: rest) :=
      hs ▸ List.sorted_insertionSort dueLE _
    have hperm : (first :: rest).Perm ((flattenSyllabi data).map (toAssignmentWithId now)) :=
      hs ▸ List.perm_insertionSort dueLE _
    have hlatest : ∀ a ∈ first :: rest,
        a.dueDateTime ≤ ((first :: rest).getLast (List.cons_ne_nil _ _)).dueDateTime :=
      sorted_dueLE_le_getLast _ hsorted
    have hstart : ∀ a ∈ first :: rest,
        startOfWeekMonday first.dueDateTime ≤ a.dueDateTime := by
      intro a ha
      exact le_trans (startOfWeekMonday_le _) (sorted_dueLE_head_le hsorted a ha)
    rw [weeklyBoards_eq_bucketWeeks now data hs]
    have h := bucketWeeks_flatMap_perm (first :: rest)
      ((first :: rest).getLast (List.cons_ne_nil _ _)).dueDateTime hlatest
      (startOfWeekMonday first.dueDateTime) 1
    have hfil : (first :: rest).filter
        (fun a => decide (startOfWeekMonday first.dueDateTime ≤ a.dueDateTime)) =
        first :: rest := by
      apply List.filter_eq_self.mpr
      intro a ha
      simpa using hstart a ha
    rw [hfil] at h
    exact h.trans hperm

/-- The emitted week numbers are 1, 2, ... with no gaps. -/
theorem weeklyBoards_weekNumbers (now : Int) (data : List AssignmentData) :
    (weeklyBoards now data).map (·.weekNumber) =
      List.range' 1 (weeklyBoards now data).length := by
  rcases hs : List.insertionSort dueLE ((flattenSyllabi data).map (toAssignmentWithId now))
    with _ | ⟨first, rest⟩
  · rw [weeklyBoards_eq_nil now data hs]
    simp
  · rw [weeklyBoards_eq_bucketWeeks now data hs]
    exact bucketWeeks_map_weekNumber _ _ _ _

/-- Successive boards have disjoint windows in increasing order. -/
theorem weeklyBoards_pairwise (now : Int) (data : List AssignmentData) :
    (weeklyBoards now data).Pairwise (fun b1 b2 => b1.endDate < b2.startDate) := by
  rcases hs : List.insertionSort dueLE ((flattenSyllabi data).map (toAssignmentWithId now))
    with _ | ⟨first, rest⟩
  · rw [weeklyBoards_eq_nil now data hs]
    exact List.Pairwise.nil
  · rw [weeklyBoards_eq_bucketWeeks now data hs]
    exact bucketWeeks_pairwise _ _ _ _

/-- Every emitted board spans exactly one week, is non-empty, and its
assignments all lie within its inclusive window. -/
theorem mem_weeklyBoards (now : Int) (data : List AssignmentData) (b : WeeklyBoard)
    (hb : b ∈ weeklyBoards now data) :
    b.endDate = b.startDate + minutesPerWeek - 1 ∧ b.assignments ≠ [] ∧
    ∀ a ∈ b.assignments, b.startDate ≤ a.dueDateTime ∧ a.dueDateTime ≤ b.endDate := by
  rcases hs : List.insertionSort dueLE ((flattenSyllabi data).map (toAssignmentWithId now))
    with _ | ⟨first, rest⟩
  · rw [weeklyBoards_eq_nil now data hs] at hb
    exact absurd hb (List.not_mem_nil b)
  · rw [weeklyBoards_eq_bucketWeeks now data hs] at hb
    obtain ⟨_, h2, _, h4, h5⟩ := mem_bucketWeeks _ _ _ _ _ hb
    refine ⟨h2, h5, ?_⟩
    intro a ha
    rw [h4] at ha
    have := (List.mem_filter.mp ha).2
    simp only [Bool.and_eq_true, decide_eq_true_eq] at this
    exact this

/-! ## Generic pairwise helpers -/

theorem eq_of_pairwise_not_rel {α : Type} {R : α → α → Prop} :
    ∀ {l : List α}, l.Pairwise R → ∀ {x y : α}, x ∈ l → y ∈ l →
      ¬ R x y → ¬ R y x → x = y := by
  intro l hp
  induction hp with
  | nil => intro x y hx _ _ _; exact absurd hx (List.not_mem_nil x)
  | cons ha _ ih =>
    intro x y hx hy hxy hyx
    rcases List.mem_cons.mp hx with rfl | hx'
    · rcases List.mem_cons.mp hy with rfl | hy'
      · rfl
      · exact absurd (ha y hy') hxy
    · rcases List.mem_cons.mp hy with rfl | hy'
      · exact absurd (ha x hx') hyx
      · exact ih hx' hy' hxy hyx

theorem length_filter_le_one_of_pairwise {α : Type} {R : α → α → Prop} {p : α → Bool} :
    ∀ {l : List α}, l.Pairwise R →
      (∀ x ∈ l, ∀ y ∈ l, p x = true → p y = true → ¬ R x y) →
      (l.filter p).length ≤ 1 := by
  intro l hp
  induction hp with
  | nil => intro _; simp
  | @cons x t ha ht ih =>
    intro hdis
    by_cases hpx : p x = true
    · have hnil : t.filter p = [] := by
        rw [List.filter_eq_nil_iff]
        intro y hy hpy
        exact hdis x (List.mem_cons_self x t) y (List.mem_cons_of_mem x hy) hpx hpy
          (ha y hy)
      simp [List.filter_cons, hpx, hnil]
    · simp only [List.filter_cons, hpx, if_false]
      exact ih fun a hat b hbt => hdis a (List.mem_cons_of_mem x hat)
        b (List.mem_cons_of_mem x hbt)

/-! ## Concrete fixtures used by the witness theorems -/

def wAssignment (i : Int) (dd dt st : String) : Assignment :=
  { id := i, name := "hw", due_date := dd, due_time := dt,
    submission_link := "", status := st }

def wData : List AssignmentData :=
  [{ id := 1, class_name := "Algorithms", course_code := "CS 251",
     assignments := [wAssignment 1 "2025-10-14" "11:59 PM" "NOT_STARTED",
                     wAssignment 2 "2025-10-19" "11:59 PM" "DONE"] }]

/-! ## Claim theorems -/

/-- C1: for every non-empty input collection of assignments, the
weekly-board derivation emits boards whose assignment multiset is
exactly the flattened, timestamped input: a permutation (so every input
assignment appears in exactly one board counting multiplicity), and the
total count across boards equals the input count. -/
theorem claim1_boards_partition_input (now : Int) (data : List AssignmentData)
    (hne : flattenSyllabi data ≠ []) :
    ((weeklyBoards now data).flatMap (·.assignments)).Perm
      ((flattenSyllabi data).map (toAssignmentWithId now)) ∧
    ((weeklyBoards now data).flatMap (·.assignments)).length =
      (flattenSyllabi data).length := by
  have h := weeklyBoards_flatMap_perm now data
  exact ⟨h, by rw [h.length_eq, List.length_map]⟩

theorem claim1_witness :
    flattenSyllabi wData ≠ [] ∧
    (((weeklyBoards 0 wData).flatMap (·.assignments)).Perm
      ((flattenSyllabi wData).map (toAssignmentWithId 0)) ∧
    ((weeklyBoards 0 wData).flatMap (·.assignments)).length =
      (flattenSyllabi wData).length) :=
  ⟨by decide, claim1_boards_partition_input 0 wData (by decide)⟩

/-- C2: boards are emitted with the 1-based week numbers 1, 2, ... in
order with no gaps (a skipped calendar week consumes no number), and
each board has an inclusive date interval that ends strictly before the next one
starts. -/
theorem claim2_board_order (now : Int) (data : List AssignmentData) :
    (weeklyBoards now data).map (·.weekNumber) =
      List.range' 1 (weeklyBoards now data).length ∧
    (weeklyBoards now data).Chain' (fun b1 b2 => b1.endDate < b2.startDate) :=
  ⟨weeklyBoards_weekNumbers now data, (weeklyBoards_pairwise now data).chain'⟩

/-- C7: an empty input assignment collection yields zero boards. -/
theorem claim7_empty_input_zero_boards (now : Int) (data : List AssignmentData)
    (hempty : flattenSyllabi data = []) :
    weeklyBoards now data = [] := by
  apply weeklyBoards_eq_nil
  rw [hempty]
  rfl

theorem claim7_witness :
    flattenSyllabi ([] : List AssignmentData) = [] ∧ weeklyBoards 0 [] = [] :=
  ⟨rfl, claim7_empty_input_zero_boards 0 [] rfl⟩

/-- C8: the course color is the rolling hash of the course code reduced
by absolute value modulo the palette size and used as an index, so the
result is always an element of the fixed palette (and, the function
being a pure function of the course code, repeated calls within one run
agree). -/
theorem claim8_course_color_in_palette (s : String) :
    generateCourseColor s ∈ courseColors := by
  unfold generateCourseColor
  have hlen : 0 < courseColors.length := by decide
  have hi : (s.data.foldl courseHashStep 0).natAbs % courseColors.length <
      courseColors.length := Nat.mod_lt _ hlen
  rw [List.getD_eq_getElem _ _ hi]
  exact List.getElem_mem hi

/-! ## Lemmas: column derivation -/

/-- The push-based distribution computes the three status filters, in
input order. -/
theorem distributeByStatus_eq_filters (l : List AssignmentWithId) :
    distributeByStatus l =
      { notStarted := l.filter (fun a => decide (a.status = "NOT_STARTED"))
        inProgress := l.filter (fun a => decide (a.status = "IN_PROGRESS"))
        done := l.filter (fun a => decide (a.status = "DONE")) } := by
  suffices h : ∀ acc : StatusBuckets, l.foldl pushByStatus acc =
      { notStarted := acc.notStarted ++ l.filter (fun a => decide (a.status = "NOT_STARTED"))
        inProgress := acc.inProgress ++ l.filter (fun a => decide (a.status = "IN_PROGRESS"))
        done := acc.done ++ l.filter (fun a => decide (a.status = "DONE")) } by
    unfold distributeByStatus
    rw [h ⟨[], [], []⟩]
    simp
  induction l with
  | nil => intro acc; simp
  | cons x t ih =>
    intro acc
    rw [List.foldl_cons]
    by_cases h1 : x.status = "NOT_STARTED"
    · have h2 : ¬ x.status = "IN_PROGRESS" := by rw [h1]; decide
      have h3 : ¬ x.status = "DONE" := by rw [h1]; decide
      rw [ih]
      simp [pushByStatus, List.filter_cons, h1, h2, h3]
    · by_cases h2 : x.status = "IN_PROGRESS"
      · have h3 : ¬ x.status = "DONE" := by rw [h2]; decide
        rw [ih]
        simp [pushByStatus, List.filter_cons, h1, h2, h3]
      · by_cases h3 : x.status = "DONE"
        · rw [ih]
          simp [pushByStatus, List.filter_cons, h1, h2, h3]
        · rw [ih]
          simp [pushByStatus, List.filter_cons, h1, h2, h3]

/-- Appending two filters by disjoint predicates permutes to the filter
by their disjunction. -/
theorem filter_disjoint_append_perm {α : Type} (l : List α) (p q : α → Bool)
    (hdis : ∀ x ∈ l, ¬(p x = true ∧ q x = true)) :
    (l.filter p ++ l.filter q).Perm (l.filter (fun x => p x || q x)) := by
  induction l with
  | nil => simp
  | cons x t ih =>
    have iht := ih fun a hat => hdis a (List.mem_cons_of_mem x hat)
    by_cases hp : p x = true
    · have hq : ¬ q x = true := fun hq => hdis x (List.mem_cons_self x t) ⟨hp, hq⟩
      simp only [List.filter_cons]
      rw [if_pos hp, if_neg hq, if_pos (show (p x || q x) = true by simp [hp])]
      simpa using iht.cons x
    · by_cases hq : q x = true
      · simp only [List.filter_cons]
        rw [if_neg hp, if_pos hq,
          if_pos (show (p x || q x) = true by simp [hq])]
        exact List.perm_middle.trans (iht.cons x)
      · simp only [List.filter_cons]
        rw [if_neg hp, if_neg hq,
          if_neg (show ¬ (p x || q x) = true by simp [hp, hq])]
        exact iht

/-- When every status is one of the three declared values, the columns
are a partition: their concatenation is a permutation of the input. -/
theorem buckets_union_perm (l : List AssignmentWithId)
    (hgood : ∀ x ∈ l, x.status = "NOT_STARTED" ∨ x.status = "IN_PROGRESS" ∨
      x.status = "DONE") :
    ((distributeByStatus l).notStarted ++ (distributeByStatus l).inProgress ++
      (distributeByStatus l).done).Perm l := by
  rw [distributeByStatus_eq_filters]
  have h1 := filter_disjoint_append_perm l
    (fun a => decide (a.status = "NOT_STARTED"))
    (fun a => decide (a.status = "IN_PROGRESS"))
    (by
      intro x _ ⟨hA, hB⟩
      simp only [decide_eq_true_eq] at hA hB
      rw [hA] at hB
      exact absurd hB (by decide))
  have h2 := filter_disjoint_append_perm l
    (fun a => decide (a.status = "NOT_STARTED") || decide (a.status = "IN_PROGRESS"))
    (fun a => decide (a.status = "DONE"))
    (by
      intro x _ ⟨hA, hB⟩
      simp only [Bool.or_eq_true, decide_eq_true_eq] at hA hB
      rcases hA with hA | hA <;> rw [hA] at hB <;> exact absurd hB (by decide))
  have h3 : l.filter (fun a => (decide (a.status = "NOT_STARTED") ||
      decide (a.status = "IN_PROGRESS")) || decide (a.status = "DONE")) = l := by
    apply List.filter_eq_self.mpr
    intro a ha
    rcases hgood a ha with h | h | h <;> simp [h]
  exact ((h1.append_right
    (l.filter (fun a => decide (a.status = "DONE")))).trans h2).trans
    (List.Perm.of_eq h3)

/-- C4: column derivation partitions a board sequence into the three
status groups preserving relative order (each group is the order-
preserving filter of the sequence), and on the three-element scenario
with statuses DONE, NOT_STARTED, IN_PROGRESS it yields not-started [b],
in-progress [c], done [a]. -/
theorem claim4_derive_columns (a b c : AssignmentWithId)
    (ha : a.status = "DONE") (hb : b.status = "NOT_STARTED")
    (hc : c.status = "IN_PROGRESS") :
    (∀ l : List AssignmentWithId, distributeByStatus l =
      { notStarted := l.filter (fun x => decide (x.status = "NOT_STARTED"))
        inProgress := l.filter (fun x => decide (x.status = "IN_PROGRESS"))
        done := l.filter (fun x => decide (x.status = "DONE")) }) ∧
    deriveColumns [a, b, c] =
      [{ id := "not-started", title := "Not Started", assignments := [b] },
       { id := "in-progress", title := "In Progress", assignments := [c] },
       { id := "done", title := "Done", assignments := [a] }] := by
  refine ⟨distributeByStatus_eq_filters, ?_⟩
  have ha1 : ¬ a.status = "NOT_STARTED" := by rw [ha]; decide
  have ha2 : ¬ a.status = "IN_PROGRESS" := by rw [ha]; decide
  have hb1 : ¬ b.status = "IN_PROGRESS" := by rw [hb]; decide
  have hb2 : ¬ b.status = "DONE" := by rw [hb]; decide
  have hc1 : ¬ c.status = "NOT_STARTED" := by rw [hc]; decide
  have hc2 : ¬ c.status = "DONE" := by rw [hc]; decide
  unfold deriveColumns
  rw [distributeByStatus_eq_filters]
  simp [List.filter_cons, ha, hb, hc, ha1, ha2, hb1, hb2, hc1, hc2]

def wAwi (i : Int) (st : String) (t : Int) : AssignmentWithId :=
  { id := i, name := "hw", due_date := "2025-10-14", due_time := "11:59 PM",
    submission_link := "", status := st, dueDateTime := t,
    courseCode := "CS 251", class_name := "Algorithms", syllabus_id := 1 }

theorem claim4_witness :
    (wAwi 1 "DONE" 0).status = "DONE" ∧
    (wAwi 2 "NOT_STARTED" 0).status = "NOT_STARTED" ∧
    (wAwi 3 "IN_PROGRESS" 0).status = "IN_PROGRESS" ∧
    ((∀ l : List AssignmentWithId, distributeByStatus l =
      { notStarted := l.filter (fun x => decide (x.status = "NOT_STARTED"))
        inProgress := l.filter (fun x => decide (x.status = "IN_PROGRESS"))
        done := l.filter (fun x => decide (x.status = "DONE")) }) ∧
    deriveColumns [wAwi 1 "DONE" 0, wAwi 2 "NOT_STARTED" 0, wAwi 3 "IN_PROGRESS" 0] =
      [{ id := "not-started", title := "Not Started",
         assignments := [wAwi 2 "NOT_STARTED" 0] },
       { id := "in-progress", title := "In Progress",
         assignments := [wAwi 3 "IN_PROGRESS" 0] },
       { id := "done", title := "Done", assignments := [wAwi 1 "DONE" 0] }]) :=
  ⟨rfl, rfl, rfl, claim4_derive_columns _ _ _ rfl rfl rfl⟩

/-- C10 (implicit): the status switch has no default branch, so an
assignment whose status is none of the three declared values lands in no
column and silently disappears from the derivation (removing it does not
change the derived columns at all), while under the precondition that
every status is one of the three values the columns are an exact
partition of the board sequence. -/
theorem claim10_unknown_status_dropped (a : AssignmentWithId)
    (l1 l2 : List AssignmentWithId)
    (h1 : a.status ≠ "NOT_STARTED") (h2 : a.status ≠ "IN_PROGRESS")
    (h3 : a.status ≠ "DONE") :
    distributeByStatus (l1 ++ a :: l2) = distributeByStatus (l1 ++ l2) ∧
    (∀ cl ∈ deriveColumns (l1 ++ a :: l2), a ∉ cl.assignments) ∧
    (∀ l : List AssignmentWithId,
      (∀ x ∈ l, x.status = "NOT_STARTED" ∨ x.status = "IN_PROGRESS" ∨
        x.status = "DONE") →
      ((distributeByStatus l).notStarted ++ (distributeByStatus l).inProgress ++
        (distributeByStatus l).done).Perm l) := by
  refine ⟨?_, ?_, fun l h => buckets_union_perm l h⟩
  · rw [distributeByStatus_eq_filters, distributeByStatus_eq_filters]
    simp [List.filter_append, List.filter_cons, h1, h2, h3]
  · intro cl hcl
    have hnot : ∀ p : AssignmentWithId → Bool, p a = false →
        a ∉ (l1 ++ a :: l2).filter p := by
      intro p hp hmem
      have := (List.mem_filter.mp hmem).2
      rw [hp] at this
      exact Bool.false_ne_true this
    unfold deriveColumns at hcl
    rw [distributeByStatus_eq_filters] at hcl
    simp only [List.mem_cons, List.not_mem_nil, or_false] at hcl
    rcases hcl with rfl | rfl | rfl
    · exact hnot _ (by simp [h1])
    · exact hnot _ (by simp [h2])
    · exact hnot _ (by simp [h3])

theorem claim10_witness :
    (wAwi 9 "ARCHIVED" 0).status ≠ "NOT_STARTED" ∧
    (wAwi 9 "ARCHIVED" 0).status ≠ "IN_PROGRESS" ∧
    (wAwi 9 "ARCHIVED" 0).status ≠ "DONE" ∧
    (distributeByStatus ([wAwi 1 "DONE" 0] ++ wAwi 9 "ARCHIVED" 0 ::
        [wAwi 2 "NOT_STARTED" 0]) =
      distributeByStatus ([wAwi 1 "DONE" 0] ++ [wAwi 2 "NOT_STARTED" 0]) ∧
    (∀ cl ∈ deriveColumns ([wAwi 1 "DONE" 0] ++ wAwi 9 "ARCHIVED" 0 ::
        [wAwi 2 "NOT_STARTED" 0]), wAwi 9 "ARCHIVED" 0 ∉ cl.assignments) ∧
    (∀ l : List AssignmentWithId,
      (∀ x ∈ l, x.status = "NOT_STARTED" ∨ x.status = "IN_PROGRESS" ∨
        x.status = "DONE") →
      ((distributeByStatus l).notStarted ++ (distributeByStatus l).inProgress ++
        (distributeByStatus l).done).Perm l)) :=
  ⟨by decide, by decide, by decide,
    claim10_unknown_status_dropped (wAwi 9 "ARCHIVED" 0) [wAwi 1 "DONE" 0]
      [wAwi 2 "NOT_STARTED" 0] (by decide) (by decide) (by decide)⟩

/-- C5: a drag that ends on no drop target, or on a target that is not
one of the three column identifiers, issues no status-update request,
triggers no refetch and no move callback, and leaves the column state
exactly as it was. -/
theorem claim5_invalid_drop_no_op (columns : List Column) (activeId : Int)
    (over : Option String) (updateSucceeds : Bool)
    (h : over = none ∨ ∃ c, over = some c ∧ c ∉ validColumns) :
    (handleDragEnd columns activeId over updateSucceeds).columns = columns ∧
    (∀ i s, DragEffect.updateStatusRequest i s ∉
      (handleDragEnd columns activeId over updateSucceeds).effects) ∧
    DragEffect.refetchRequest ∉
      (handleDragEnd columns activeId over updateSucceeds).effects ∧
    (∀ i c, DragEffect.moveCallback i c ∉
      (handleDragEnd columns activeId over updateSucceeds).effects) := by
  rcases h with rfl | ⟨c, rfl, hc⟩
  · simp [handleDragEnd]
  · simp [handleDragEnd, hc]

theorem claim5_witness :
    ((some "editor-pane" : Option String) = none ∨
      ∃ c, (some "editor-pane" : Option String) = some c ∧ c ∉ validColumns) ∧
    ((handleDragEnd [] 1 (some "editor-pane") true).columns = [] ∧
    (∀ i s, DragEffect.updateStatusRequest i s ∉
      (handleDragEnd [] 1 (some "editor-pane") true).effects) ∧
    DragEffect.refetchRequest ∉
      (handleDragEnd [] 1 (some "editor-pane") true).effects ∧
    (∀ i c, DragEffect.moveCallback i c ∉
      (handleDragEnd [] 1 (some "editor-pane") true).effects)) :=
  ⟨Or.inr ⟨"editor-pane", rfl, by decide⟩,
    claim5_invalid_drop_no_op [] 1 (some "editor-pane") true
      (Or.inr ⟨"editor-pane", rfl, by decide⟩)⟩

/-- The status map succeeds on every valid column identifier. -/
theorem statusMap_of_valid {c : String} (hc : c ∈ validColumns) :
    ∃ s, statusMap c = some s := by
  simp only [validColumns, List.mem_cons, List.not_mem_nil, or_false] at hc
  rcases hc with rfl | rfl | rfl
  · exact ⟨"NOT_STARTED", rfl⟩
  · exact ⟨"IN_PROGRESS", rfl⟩
  · exact ⟨"DONE", rfl⟩

def isUpdateStatusRequest : DragEffect → Bool
  | DragEffect.updateStatusRequest _ _ => true
  | _ => false

/-- C6 as the code actually behaves (amended): when the status update
fails, the column state and (since no refetch is triggered) the working
copy of syllabus data are left unchanged, the update request was issued
exactly once with no automatic retry, the failure is logged to the
console, and no user-visible message is emitted. -/
theorem claim6_failure_no_mutation (columns : List Column) (activeId : Int)
    (c : String) (hc : c ∈ validColumns)
    (a : AssignmentWithId)
    (hfound : findAssignmentInColumns columns activeId = some a) :
    (handleDragEnd columns activeId (some c) false).columns = columns ∧
    ((handleDragEnd columns activeId (some c) false).effects.filter
      isUpdateStatusRequest).length = 1 ∧
    DragEffect.refetchRequest ∉
      (handleDragEnd columns activeId (some c) false).effects ∧
    (∃ m, DragEffect.consoleError m ∈
      (handleDragEnd columns activeId (some c) false).effects) ∧
    ¬ emitsVisibleMessage (handleDragEnd columns activeId (some c) false).effects := by
  obtain ⟨s, hs⟩ := statusMap_of_valid hc
  have hrun : handleDragEnd columns activeId (some c) false =
      { effects := [DragEffect.consoleLog "Drag end",
                    DragEffect.consoleLog "Moving assignment",
                    DragEffect.updateStatusRequest activeId s,
                    DragEffect.consoleError "Failed to update assignment status"]
        columns := columns } := by
    simp only [handleDragEnd]
    rw [if_pos hc, hs, hfound]
    rfl
  rw [hrun]
  refine ⟨rfl, by simp [isUpdateStatusRequest], by simp,
    ⟨"Failed to update assignment status", by simp⟩, ?_⟩
  rintro ⟨m, hm⟩
  simp [emitsVisibleMessage] at hm

def wCols6 : List Column := deriveColumns [wAwi 1 "NOT_STARTED" 0]

/-- C6 counterexample to the claim as stated: in a concrete failing run
the catch block only logs to the console; no user-visible message is
emitted (while the state is indeed unchanged), so the failure is not
surfaced to the user as a visible message. -/
theorem claim6_counterexample :
    (handleDragEnd wCols6 1 (some "done") false).columns = wCols6 ∧
    DragEffect.consoleError "Failed to update assignment status" ∈
      (handleDragEnd wCols6 1 (some "done") false).effects ∧
    ¬ emitsVisibleMessage (handleDragEnd wCols6 1 (some "done") false).effects := by
  refine ⟨by decide, by decide, ?_⟩
  rintro ⟨m, hm⟩
  have : (handleDragEnd wCols6 1 (some "done") false).effects =
      [DragEffect.consoleLog "Drag end", DragEffect.consoleLog "Moving assignment",
       DragEffect.updateStatusRequest 1 "DONE",
       DragEffect.consoleError "Failed to update assignment status"] := by decide
  rw [this] at hm
  simp at hm

theorem claim6_witness :
    ("done" ∈ validColumns) ∧
    (findAssignmentInColumns wCols6 1 = some (wAwi 1 "NOT_STARTED" 0)) ∧
    ((handleDragEnd wCols6 1 (some "done") false).columns = wCols6 ∧
    ((handleDragEnd wCols6 1 (some "done") false).effects.filter
      isUpdateStatusRequest).length = 1 ∧
    DragEffect.refetchRequest ∉
      (handleDragEnd wCols6 1 (some "done") false).effects ∧
    (∃ m, DragEffect.consoleError m ∈
      (handleDragEnd wCols6 1 (some "done") false).effects) ∧
    ¬ emitsVisibleMessage (handleDragEnd wCols6 1 (some "done") false).effects) :=
  ⟨by decide, by decide,
    claim6_failure_no_mutation wCols6 1 "done" (by decide) (wAwi 1 "NOT_STARTED" 0)
      (by decide)⟩

/-- C3: combining due_date 2025-10-19 with due_time 11:59 PM under the
fixed pattern yields October 19, 2025, 23:59 local time; and an
assignment whose fields fail to parse gets the current wall-clock time
as its timestamp and still appears in exactly one emitted board. -/
theorem claim3_parse_and_fallback (now : Int) (data : List AssignmentData)
    (fa : FlatAssignment) (hmem : fa ∈ flattenSyllabi data)
    (hfail : parseDueDateTime fa.due_date fa.due_time = none) :
    parseDueDateTime "2025-10-19" "11:59 PM" = some (mkTimestamp 2025 10 19 23 59) ∧
    (toAssignmentWithId now fa).dueDateTime = now ∧
    ((weeklyBoards now data).filter
      (fun b => decide (toAssignmentWithId now fa ∈ b.assignments))).length = 1 := by
  refine ⟨by decide, by simp [toAssignmentWithId, hfail], ?_⟩
  have hmem2 : toAssignmentWithId now fa ∈
      (flattenSyllabi data).map (toAssignmentWithId now) :=
    List.mem_map_of_mem _ hmem
  have hmem3 : toAssignmentWithId now fa ∈
      (weeklyBoards now data).flatMap (·.assignments) :=
    (weeklyBoards_flatMap_perm now data).mem_iff.mpr hmem2
  obtain ⟨b, hb, hbe⟩ := List.mem_flatMap.mp hmem3
  have hlow : 0 < ((weeklyBoards now data).filter
      (fun b => decide (toAssignmentWithId now fa ∈ b.assignments))).length := by
    apply List.length_pos.mpr
    apply List.ne_nil_of_mem (a := b)
    exact List.mem_filter.mpr ⟨hb, by simp [hbe]⟩
  have hup : ((weeklyBoards now data).filter
      (fun b => decide (toAssignmentWithId now fa ∈ b.assignments))).length ≤ 1 := by
    apply length_filter_le_one_of_pairwise (weeklyBoards_pairwise now data)
    intro b1 hb1 b2 hb2 hp1 hp2 hR
    simp only [decide_eq_true_eq] at hp1 hp2
    have h1 := (mem_weeklyBoards now data b1 hb1).2.2 _ hp1
    have h2 := (mem_weeklyBoards now data b2 hb2).2.2 _ hp2
    omega
  omega

def wFallbackData : List AssignmentData :=
  [{ id := 1, class_name := "Algorithms", course_code := "CS 251",
     assignments := [wAssignment 7 "2025-10-14" "" "NOT_STARTED"] }]

def wFallbackFlat : FlatAssignment :=
  { toAssignment := wAssignment 7 "2025-10-14" "" "NOT_STARTED",
    courseCode := "CS 251", class_name := "Algorithms", syllabus_id := 1 }

theorem claim3_witness :
    wFallbackFlat ∈ flattenSyllabi wFallbackData ∧
    parseDueDateTime wFallbackFlat.due_date wFallbackFlat.due_time = none ∧
    (parseDueDateTime "2025-10-19" "11:59 PM" =
      some (mkTimestamp 2025 10 19 23 59) ∧
    (toAssignmentWithId 29000000 wFallbackFlat).dueDateTime = 29000000 ∧
    ((weeklyBoards 29000000 wFallbackData).filter
      (fun b => decide (toAssignmentWithId 29000000 wFallbackFlat ∈
        b.assignments))).length = 1) :=
  ⟨by decide, by decide,
    claim3_parse_and_fallback 29000000 wFallbackData wFallbackFlat
      (by decide) (by decide)⟩

/-- C9: on load, with weekly boards available and no explicit selection
made, the selected board is the one whose inclusive interval contains
today when such a board exists, and otherwise the first board. -/
theorem claim9_auto_selection (now today : Int) (data : List AssignmentData) :
    (∀ b ∈ weeklyBoards now data, b.startDate ≤ today → today ≤ b.endDate →
      autoSelectWeek (weeklyBoards now data) none BoardType.weekly today =
        some b.weekNumber) ∧
    ((∀ b ∈ weeklyBoards now data, ¬ (b.startDate ≤ today ∧ today ≤ b.endDate)) →
      ∀ b0 rest, weeklyBoards now data = b0 :: rest →
        autoSelectWeek (weeklyBoards now data) none BoardType.weekly today =
          some b0.weekNumber) := by
  constructor
  · intro b hb h1 h2
    rcases hB : weeklyBoards now data with _ | ⟨b0, rest⟩
    · rw [hB] at hb
      exact absurd hb (List.not_mem_nil b)
    · have hpw := weeklyBoards_pairwise now data
      rw [hB] at hb hpw
      have hex : ((b0 :: rest).find? (fun bb => decide (bb.startDate ≤ today) &&
          decide (today ≤ bb.endDate))).isSome := by
        rw [List.find?_isSome]
        exact ⟨b, hb, by simp [h1, h2]⟩
      obtain ⟨b', hfind⟩ := Option.isSome_iff_exists.mp hex
      have hb'p := List.find?_some hfind
      simp only [Bool.and_eq_true, decide_eq_true_eq] at hb'p
      have hb'mem := List.mem_of_find?_eq_some hfind
      have hbb' : b = b' := by
        apply eq_of_pairwise_not_rel hpw hb hb'mem
        · omega
        · omega
      simp only [autoSelectWeek]
      rw [hfind, hbb']
  · intro hnone b0 rest hB
    have hfind : ((b0 :: rest).find? (fun bb => decide (bb.startDate ≤ today) &&
        decide (today ≤ bb.endDate))) = none := by
      rw [List.find?_eq_none]
      intro x hx
      have := hnone x (hB ▸ hx)
      simp only [Bool.and_eq_true, decide_eq_true_eq]
      omega
    rw [hB]
    simp only [autoSelectWeek]
    rw [hfind]

def wSelData : List AssignmentData :=
  [{ id := 1, class_name := "Algorithms", course_code := "CS 251",
     assignments := [wAssignment 1 "1970-01-01" "12:00 AM" "NOT_STARTED"] }]

def wSelFlat : FlatAssignment :=
  { toAssignment := wAssignment 1 "1970-01-01" "12:00 AM" "NOT_STARTED",
    courseCode := "CS 251", class_name := "Algorithms", syllabus_id := 1 }

def wSelBoard : WeeklyBoard :=
  { weekNumber := 1, startDate := -4320, endDate := 5759,
    title := weekTitle 1 (-4320) 5759,
    assignments := [toAssignmentWithId 0 wSelFlat] }

/-- Concrete evaluation of the pipeline on the selection fixture. -/
theorem wSel_eval : weeklyBoards 0 wSelData = [wSelBoard] := by
  have hs : List.insertionSort dueLE
      ((flattenSyllabi wSelData).map (toAssignmentWithId 0)) =
      [toAssignmentWithId 0 wSelFlat] := by decide
  rw [weeklyBoards_eq_bucketWeeks 0 wSelData hs]
  rw [@bucketWeeks_emit [toAssignmentWithId 0 wSelFlat]
    (([toAssignmentWithId 0 wSelFlat].getLast (List.cons_ne_nil _ _)).dueDateTime)
    (startOfWeekMonday (toAssignmentWithId 0 wSelFlat).dueDateTime) 1
    (by decide) (by decide)]
  rw [@bucketWeeks_stop [toAssignmentWithId 0 wSelFlat]
    (([toAssignmentWithId 0 wSelFlat].getLast (List.cons_ne_nil _ _)).dueDateTime)
    (startOfWeekMonday (toAssignmentWithId 0 wSelFlat).dueDateTime + minutesPerWeek)
    2 (by decide)]
  decide

theorem claim9_witness :
    (wSelBoard ∈ weeklyBoards 0 wSelData ∧
      wSelBoard.startDate ≤ 0 ∧ (0 : Int) ≤ wSelBoard.endDate) ∧
    autoSelectWeek (weeklyBoards 0 wSelData) none BoardType.weekly 0 =
      some wSelBoard.weekNumber ∧
    autoSelectWeek (weeklyBoards 0 wSelData) none BoardType.weekly 99999 =
      some wSelBoard.weekNumber := by
  have hmem : wSelBoard ∈ weeklyBoards 0 wSelData := by
    rw [wSel_eval]
    exact List.mem_singleton.mpr rfl
  refine ⟨⟨hmem, by decide, by decide⟩, ?_, ?_⟩
  · exact (claim9_auto_selection 0 0 wSelData).1 wSelBoard hmem
      (by decide) (by decide)
  · refine (claim9_auto_selection 0 99999 wSelData).2 ?_ wSelBoard
      [] wSel_eval
    intro b hb
    rw [wSel_eval] at hb
    rw [List.mem_singleton.mp hb]
    decide

end HomeworkKanban
